import Mathlib

/-!
Verification of the command-t matcher core (`matcher.c`).

The C file implements `CommandTMatcher_initialize` and
`CommandTMatcher_sorted_matches_for`: per-candidate scores are computed by
the external scorer `calculate_match` (from `match.c`, not part of the
sources verified here), written into a shared buffer by striped worker
threads (`match_thread`), sorted with `cmp_alpha` / `cmp_score`, and then
filtered (score > 0) and truncated (limit) in a single forward pass.

Candidate paths and the abbreviation are byte strings (`List Nat`);
scores are modelled as rationals (the C code only compares them).  The
scorer is an explicit parameter `scorer : List Nat → List Nat → ℚ`
mapping the normalized abbreviation and a path to a score; the dot-file
flags, case flag and recurse flag that `matcher.c` merely forwards to
`calculate_match` are absorbed into that parameter, since they are fixed
for the duration of one call.
-/

/-- One entry of the score buffer: `match_t` from `match.h` as used by
`matcher.c` (a candidate path plus its score). -/
structure match_t where
  path : List Nat
  score : ℚ
deriving DecidableEq

/-- Sign of the comparison of two bytes, as `strncmp` compares
`unsigned char` values. -/
def byteCmp (a b : Nat) : Int :=
  if a < b then -1 else if b < a then 1 else 0

/-- Sign of C `strncmp(a, b, n)`: compare at most `n` bytes, stopping at
the first difference or at a NUL byte; a list end behaves as the string's
NUL terminator (Ruby strings are NUL-terminated past their length). -/
def strncmpSign : Nat → List Nat → List Nat → Int
  | 0, _, _ => 0
  | _ + 1, [], [] => 0
  | _ + 1, [], b :: _ => if b = 0 then 0 else -1
  | _ + 1, a :: _, [] => if a = 0 then 0 else 1
  | n + 1, a :: as, b :: bs =>
    if a = b then (if a = 0 then 0 else strncmpSign n as bs) else byteCmp a b

/-- Analysis helper: a byte string truncated at its first NUL byte, which
is the portion `strncmp` can ever inspect. -/
def truncNul (s : List Nat) : List Nat :=
  s.takeWhile (fun b => b ≠ 0)

/-- Analysis helper: the sign of plain lexicographic comparison of two
byte strings (no NUL treatment, no length cutoff). -/
def lexSign : List Nat → List Nat → Int
  | [], [] => 0
  | [], _ :: _ => -1
  | _ :: _, [] => 1
  | a :: as, b :: bs => if a = b then lexSign as bs else byteCmp a b

/-- Analysis helper: the order `cmp_alpha` actually implements, stated
directly: lexicographic on the NUL-truncated strings, with the raw length
as tie-break. -/
def keyCmp (a b : List Nat) : Int :=
  if lexSign (truncNul a) (truncNul b) = 0 then
    (if a.length < b.length then -1 else if b.length < a.length then 1 else 0)
  else lexSign (truncNul a) (truncNul b)

/-- `cmp_alpha` from `matcher.c`, on the two path strings: byte-wise
`strncmp` up to the shorter length; if equal up to that point the shorter
string wins. -/
def cmp_alpha_bytes (a_p b_p : List Nat) : Int :=
  if a_p.length > b_p.length then
    let order := strncmpSign b_p.length a_p b_p
    if order = 0 then 1 else order
  else if a_p.length < b_p.length then
    let order := strncmpSign a_p.length a_p b_p
    if order = 0 then -1 else order
  else
    strncmpSign a_p.length a_p b_p

/-- `cmp_alpha` from `matcher.c`: compares two buffer entries by their
path strings only. -/
def cmp_alpha (a b : match_t) : Int :=
  cmp_alpha_bytes a.path b.path

/-- `cmp_score` from `matcher.c`: higher score first, ties broken by
`cmp_alpha`. -/
def cmp_score (a b : match_t) : Int :=
  if a.score > b.score then -1
  else if a.score < b.score then 1
  else cmp_alpha a b

/-- The buffer entry produced for one candidate: `calculate_match` stores
the path together with its computed score. -/
def scored_match (scorer : List Nat → ℚ) (p : List Nat) : match_t :=
  ⟨p, scorer p⟩

/-- One buffer write of `match_thread`: slot `i` receives the scored match
for candidate `i` (`calculate_match(path, …, &args->matches[i])`). -/
def write_match (scorer : List Nat → ℚ) (paths : List (List Nat))
    (buf : List (Option match_t)) (i : Nat) : List (Option match_t) :=
  buf.set i (some (scored_match scorer (paths.getD i [])))

/-- The loop of `match_thread`:
`for (i = thread_index; i < path_count; i += thread_count)`, with an
explicit fuel bound on the number of iterations (for `thread_count ≥ 1`
the loop performs at most `path_count` iterations, so fuel `path_count`
is enough). -/
def match_thread_loop (scorer : List Nat → ℚ) (paths : List (List Nat))
    (thread_count : Nat) :
    Nat → Nat → List (Option match_t) → List (Option match_t)
  | 0, _, buf => buf
  | fuel + 1, i, buf =>
    if i < paths.length then
      match_thread_loop scorer paths thread_count fuel (i + thread_count)
        (write_match scorer paths buf i)
    else buf

/-- `match_thread` from `matcher.c`: worker `thread_index` of
`thread_count` scores candidates `thread_index, thread_index + thread_count, …`
and writes each result into the buffer slot of the candidate's index. -/
def match_thread (scorer : List Nat → ℚ) (paths : List (List Nat))
    (thread_count thread_index : Nat)
    (buf : List (Option match_t)) : List (Option match_t) :=
  match_thread_loop scorer paths thread_count paths.length thread_index buf

/-- The slots worker `k` of `T` writes: indices `j` with `k ≤ j` and
`j ≡ k (mod T)` (and `j` below the buffer length). -/
def writes_to (thread_count thread_index j : Nat) : Prop :=
  thread_index ≤ j ∧ thread_count ∣ (j - thread_index)

instance (thread_count thread_index j : Nat) :
    Decidable (writes_to thread_count thread_index j) := by
  unfold writes_to; infer_instance

/-- The work-distribution of `CommandTMatcher_sorted_matches_for`: the
score buffer starts uninitialized (`malloc`, modelled as `none` slots) and
workers `0, …, thread_count - 1` each run `match_thread` (the last one on
the calling thread, the others concurrently; the final buffer contents are
the same either way since a slot is written by exactly one worker). -/
def distribute (scorer : List Nat → ℚ) (paths : List (List Nat))
    (thread_count : Nat) : List (Option match_t) :=
  (List.range thread_count).foldl
    (fun buf k => match_thread scorer paths thread_count k buf)
    (List.replicate paths.length none)

/-- Reading the raw buffer after the workers have been joined; a slot no
worker wrote holds arbitrary (uninitialized) memory, modelled as a fixed
junk entry with score `0`. -/
def read_buffer (buf : List (Option match_t)) : List match_t :=
  buf.map (fun o => o.getD ⟨[], 0⟩)

/-- Ruby `String#downcase` on an ASCII byte. -/
def downcaseByte (b : Nat) : Nat :=
  if 65 ≤ b ∧ b ≤ 90 then b + 32 else b

/-- Abbreviation normalization of `CommandTMatcher_sorted_matches_for`:
downcase unless `case_sensitive` is exactly true, then delete spaces if
`ignore_spaces` is exactly true.  Options absent from the hash are `none`
(Ruby nil). -/
def normalize_abbrev (abb : List Nat)
    (case_sensitive ignore_spaces : Option Bool) : List Nat :=
  let a := if case_sensitive = some true then abb else abb.map downcaseByte
  if ignore_spaces = some true then a.filter (fun b => b ≠ 32) else a

/-- `thread_count = NIL_P(threads_option) ? 1 : NUM2LONG(threads_option)`
followed by the `THREAD_THRESHOLD` check (`matcher.c` builds with
`HAVE_PTHREAD_H`): below 1000 candidates a single worker is forced. -/
def effective_thread_count (path_count : Nat) (threads_option : Option Int) : Int :=
  let thread_count := threads_option.getD 1
  if path_count < 1000 then 1 else thread_count

/-- Comparator selection of `CommandTMatcher_sorted_matches_for`: sort
unless the `sort` option is present and not true; alphabetically for the
(normalized) abbreviation `""` or `"."` (byte 46), by score otherwise.
The C code uses `qsort`, whose result is specified only up to the order of
comparator-equal entries; the embedding fixes a deterministic refinement
(`mergeSort`). -/
def sort_matches (sort_option : Option Bool) (abb : List Nat)
    (ms : List match_t) : List match_t :=
  if sort_option = none ∨ sort_option = some true then
    if abb = [] ∨ abb = [46] then
      ms.mergeSort (fun a b => decide (cmp_alpha a b ≤ 0))
    else
      ms.mergeSort (fun a b => decide (cmp_score a b ≤ 0))
  else ms

/-- `limit = NIL_P(limit_option) ? 0 : NUM2LONG(limit_option)`, then
`if (limit == 0) limit = path_count`. -/
def limit_value (limit_option : Option Int) (path_count : Nat) : Int :=
  let limit := limit_option.getD 0
  if limit = 0 then (path_count : Int) else limit

/-- The final forward pass of `CommandTMatcher_sorted_matches_for`:
`for (i = 0; i < path_count && limit > 0; i++)` pushes `matches[i].path`
and decrements `limit` whenever `matches[i].score > 0.0`. -/
def collectResults : List match_t → Int → List (List Nat)
  | [], _ => []
  | m :: rest, limit =>
    if 0 < limit then
      if 0 < m.score then m.path :: collectResults rest (limit - 1)
      else collectResults rest limit
    else []

/-- The options hash accepted by `sorted_matches_for`; `none` is an absent
key (Ruby nil).  The `recurse` entry is only forwarded to the scorer and
is absorbed into the scorer parameter. -/
structure MatchOptions where
  case_sensitive : Option Bool := none
  limit : Option Int := none
  threads : Option Int := none
  sort : Option Bool := none
  ignore_spaces : Option Bool := none
deriving DecidableEq

/-- The options hash accepted by the constructor. -/
structure InitOptions where
  always_show_dot_files : Option Bool := none
  never_show_dot_files : Option Bool := none
deriving DecidableEq

/-- The matcher instance state: the `@scanner`, `@always_show_dot_files`
and `@never_show_dot_files` instance variables.  The scanner collaborator
is represented by the path list its `paths` call returns. -/
structure CommandTMatcher where
  scanner : List (List Nat)
  always_show_dot_files : Option Bool
  never_show_dot_files : Option Bool
deriving DecidableEq

/-- `CommandTMatcher_initialize`: a nil scanner is an `ArgError`
(`rb_raise(rb_eArgError, "nil scanner")`); otherwise the scanner and the
two dot-file options are stored on the instance. -/
def CommandTMatcher_init (scanner : Option (List (List Nat)))
    (options : Option InitOptions) : Except String CommandTMatcher :=
  match scanner with
  | none => .error "nil scanner"
  | some s =>
    let o := options.getD {}
    .ok ⟨s, o.always_show_dot_files, o.never_show_dot_files⟩

/-- `CommandTMatcher_sorted_matches_for`: validate the abbreviation,
normalize it, score every candidate of the scanner's path list through the
striped workers, sort, then filter and truncate.  The scorer stands for
`calculate_match` applied to the fixed per-call flags; it receives the
normalized abbreviation and the candidate path. -/
def CommandTMatcher_sorted_matches_for
    (scorer : List Nat → List Nat → ℚ) (self : CommandTMatcher)
    (abbrev_arg : Option (List Nat)) (options : Option MatchOptions) :
    Except String (List (List Nat)) :=
  match abbrev_arg with
  | none => .error "nil abbrev"
  | some abbrev0 =>
    let o := options.getD {}
    let abb := normalize_abbrev abbrev0 o.case_sensitive o.ignore_spaces
    let paths := self.scanner
    let ms := read_buffer (distribute (scorer abb) paths
      (effective_thread_count paths.length o.threads).toNat)
    let sorted := sort_matches o.sort abb ms
    .ok (collectResults sorted (limit_value o.limit paths.length))

/-- Modelled from the spec: the last path segment of a candidate (path
separator `/`, byte 47). -/
def last_segment (path : List Nat) : List Nat :=
  path.foldl (fun seg b => if b = 47 then [] else seg ++ [b]) []

/-- Modelled from the spec: a candidate is dot-hidden when its final path
segment begins with `.` (byte 46). -/
def dot_hidden (path : List Nat) : Bool :=
  match last_segment path with
  | 46 :: _ => true
  | _ => false

/-- Modelled from the spec: `calculate_match` (in `match.c`, not under the
verified sources) for the empty pattern under default flags.  Per §4.1 of
the spec the empty pattern is a subsequence of every candidate, so every
candidate scores positively except a dot-hidden one, which scores 0
because dot files are suppressed when `always_show_dot_files` is unset and
the pattern's corresponding segment does not begin with `.`. -/
def emptyPatternDefaultScore (path : List Nat) : ℚ :=
  if dot_hidden path then 0 else 1

theorem byteCmp_self (a : Nat) : byteCmp a a = 0 := by
  simp [byteCmp]

theorem byteCmp_neg (a b : Nat) : byteCmp a b = -byteCmp b a := by
  unfold byteCmp
  rcases Nat.lt_trichotomy a b with h | h | h
  · simp [h, Nat.lt_asymm h]
  · simp [h]
  · simp [h, Nat.lt_asymm h]

theorem byteCmp_eq_zero_iff (a b : Nat) : byteCmp a b = 0 ↔ a = b := by
  unfold byteCmp
  split <;> rename_i h
  · omega
  · split <;> omega

theorem byteCmp_nonpos_iff (a b : Nat) : byteCmp a b ≤ 0 ↔ a ≤ b := by
  unfold byteCmp
  split <;> rename_i h
  · omega
  · split <;> omega

theorem lexSign_eq_zero_iff (x : List Nat) : ∀ y, lexSign x y = 0 ↔ x = y := by
  induction x with
  | nil => intro y; cases y <;> simp [lexSign]
  | cons a as ih =>
    intro y
    cases y with
    | nil => simp [lexSign]
    | cons b bs =>
      by_cases hab : a = b
      · subst hab; simp [lexSign, ih]
      · simp [lexSign, hab, byteCmp_eq_zero_iff]

theorem lexSign_neg (x : List Nat) : ∀ y, lexSign x y = -lexSign y x := by
  induction x with
  | nil => intro y; cases y <;> simp [lexSign]
  | cons a as ih =>
    intro y
    cases y with
    | nil => simp [lexSign]
    | cons b bs =>
      by_cases hab : a = b
      · subst hab; simp [lexSign, ih bs]
      · have hba : ¬ b = a := fun h => hab h.symm
        simp [lexSign, hab, hba, byteCmp_neg a b]

theorem lexSign_cases (x : List Nat) :
    ∀ y, lexSign x y = -1 ∨ lexSign x y = 0 ∨ lexSign x y = 1 := by
  induction x with
  | nil => intro y; cases y <;> simp [lexSign]
  | cons a as ih =>
    intro y
    cases y with
    | nil => simp [lexSign]
    | cons b bs =>
      by_cases hab : a = b
      · simpa [lexSign, hab] using ih bs
      · simp only [lexSign, if_neg hab]
        unfold byteCmp
        split
        · simp
        · split <;> simp

theorem lexSign_le_trans (x : List Nat) :
    ∀ y z, lexSign x y ≤ 0 → lexSign y z ≤ 0 → lexSign x z ≤ 0 := by
  induction x with
  | nil => intro y z _ _; cases z <;> simp [lexSign]
  | cons a as ih =>
    intro y z h1 h2
    cases y with
    | nil => simp [lexSign] at h1
    | cons b bs =>
      cases z with
      | nil => simp [lexSign] at h2
      | cons c cs =>
        by_cases hab : a = b <;> by_cases hbc : b = c
        · simp only [lexSign, if_pos hab] at h1
          simp only [lexSign, if_pos hbc] at h2
          simp only [lexSign, if_pos (hab.trans hbc)]
          exact ih bs cs h1 h2
        · simp only [lexSign, if_neg hbc] at h2
          have hb_le : b ≤ c := (byteCmp_nonpos_iff b c).mp h2
          have hac : ¬ a = c := by omega
          simp only [lexSign, if_neg hac]
          exact (byteCmp_nonpos_iff a c).mpr (by omega)
        · simp only [lexSign, if_neg hab] at h1
          have ha_le : a ≤ b := (byteCmp_nonpos_iff a b).mp h1
          have hab' : a < b := Nat.lt_of_le_of_ne ha_le hab
          have hac : ¬ a = c := by omega
          simp only [lexSign, if_neg hac]
          exact (byteCmp_nonpos_iff a c).mpr (by omega)
        · simp only [lexSign, if_neg hab] at h1
          simp only [lexSign, if_neg hbc] at h2
          have ha_le : a ≤ b := (byteCmp_nonpos_iff a b).mp h1
          have hb_le : b ≤ c := (byteCmp_nonpos_iff b c).mp h2
          have hab' : a < b := Nat.lt_of_le_of_ne ha_le hab
          have hbc' : b < c := Nat.lt_of_le_of_ne hb_le hbc
          have hac : ¬ a = c := by omega
          simp only [lexSign, if_neg hac]
          exact (byteCmp_nonpos_iff a c).mpr (by omega)

theorem lexSign_append (z x : List Nat) (hz : z ≠ []) : lexSign (x ++ z) x = 1 := by
  induction x with
  | nil =>
    cases z with
    | nil => exact absurd rfl hz
    | cons c cs => simp [lexSign]
  | cons a as ih => simpa [lexSign] using ih

theorem lexSign_take (x : List Nat) :
    ∀ (y : List Nat) (n : Nat), y.length ≤ n → lexSign (x.take n) y ≠ 0 →
      lexSign x y = lexSign (x.take n) y := by
  induction x with
  | nil => intro y n _ _; simp
  | cons a as ih =>
    intro y n hy h0
    cases n with
    | zero =>
      have : y = [] := List.length_eq_zero.mp (Nat.le_zero.mp hy)
      subst this
      simp [lexSign] at h0
    | succ n =>
      cases y with
      | nil => simp [lexSign]
      | cons b bs =>
        by_cases hab : a = b
        · subst hab
          simp only [List.take_succ_cons, lexSign, if_pos rfl] at h0 ⊢
          exact ih bs n (by simpa using hy) h0
        · simp only [List.take_succ_cons, lexSign, if_neg hab]

theorem takeWhile_take_comm (p : Nat → Bool) (l : List Nat) :
    ∀ n, (l.take n).takeWhile p = (l.takeWhile p).take n := by
  induction l with
  | nil => intro n; simp
  | cons a l ih =>
    intro n
    cases n with
    | zero => simp
    | succ n =>
      by_cases hp : p a
      · simp [List.take_succ_cons, List.takeWhile_cons, hp, ih]
      · simp [List.takeWhile_cons, hp]

theorem strncmpSign_eq_lexSign (n : Nat) :
    ∀ (a b : List Nat),
      strncmpSign n a b = lexSign (truncNul (a.take n)) (truncNul (b.take n)) := by
  induction n with
  | zero => intro a b; simp [strncmpSign, truncNul, lexSign]
  | succ n ih =>
    intro a b
    cases a with
    | nil =>
      cases b with
      | nil => simp [strncmpSign, truncNul, lexSign]
      | cons b bs =>
        by_cases hb : b = 0
        · simp [strncmpSign, hb, truncNul, lexSign]
        · simp [strncmpSign, hb, truncNul, lexSign]
    | cons a as =>
      cases b with
      | nil =>
        by_cases ha : a = 0
        · simp [strncmpSign, ha, truncNul, lexSign]
        · simp [strncmpSign, ha, truncNul, lexSign]
      | cons b bs =>
        by_cases hab : a = b
        · by_cases ha : a = 0
          · simp [strncmpSign, hab, ha, truncNul, lexSign, hab ▸ ha]
          · have hbz : ¬ b = 0 := hab ▸ ha
            simp [strncmpSign, hab, ha, truncNul, lexSign, hbz, ih as bs]
        · by_cases ha : a = 0 <;> by_cases hb : b = 0
          · omega
          · have hby : 0 < b := by omega
            have hnb : ¬ (0 : Nat) = b := by omega
            simp [strncmpSign, hab, ha, hb, truncNul, lexSign, byteCmp, hby, hnb]
          · have : 0 < a := by omega
            simp [strncmpSign, hab, ha, hb, truncNul, lexSign, byteCmp, this,
              Nat.lt_asymm this]
          · simp [strncmpSign, hab, ha, hb, truncNul, lexSign]

theorem strncmpSign_neg (n : Nat) (a b : List Nat) :
    strncmpSign n a b = -strncmpSign n b a := by
  rw [strncmpSign_eq_lexSign, strncmpSign_eq_lexSign, lexSign_neg]

theorem truncNul_take (s : List Nat) (n : Nat) :
    truncNul (s.take n) = (truncNul s).take n :=
  takeWhile_take_comm _ s n

theorem truncNul_length_le (s : List Nat) : (truncNul s).length ≤ s.length :=
  (List.takeWhile_sublist _).length_le

theorem cmp_alpha_bytes_neg (a b : List Nat) :
    cmp_alpha_bytes a b = -cmp_alpha_bytes b a := by
  unfold cmp_alpha_bytes
  rcases Nat.lt_trichotomy a.length b.length with h | h | h
  · have h1 : ¬ a.length > b.length := by omega
    have h2 : b.length > a.length := h
    simp only [gt_iff_lt, if_neg h1, if_pos h, if_pos h2]
    rw [strncmpSign_neg a.length b a]
    by_cases hs : strncmpSign a.length a b = 0
    · simp [hs]
    · simp [hs, neg_eq_zero]
  · have h1 : ¬ a.length > b.length := by omega
    have h2 : ¬ a.length < b.length := by omega
    have h3 : ¬ b.length > a.length := by omega
    have h4 : ¬ b.length < a.length := by omega
    simp only [gt_iff_lt, if_neg h1, if_neg h2, if_neg h3, if_neg h4]
    rw [h, strncmpSign_neg b.length a b]
  · have h1 : a.length > b.length := h
    have h2 : ¬ b.length > a.length := by omega
    have h3 : b.length < a.length := h
    simp only [gt_iff_lt, if_pos h1, if_neg h2, if_pos h3]
    rw [strncmpSign_neg b.length b a]
    by_cases hs : strncmpSign b.length a b = 0
    · simp [hs]
    · simp [hs, neg_eq_zero]

theorem keyCmp_neg (a b : List Nat) : keyCmp a b = -keyCmp b a := by
  unfold keyCmp
  rw [lexSign_neg (truncNul a) (truncNul b)]
  by_cases hl : lexSign (truncNul b) (truncNul a) = 0
  · simp only [hl, neg_zero, if_pos rfl]
    rcases Nat.lt_trichotomy a.length b.length with h | h | h
    · simp [h, Nat.lt_asymm h]
    · simp [h]
    · simp [h, Nat.lt_asymm h]
  · have hl2 : ¬ -lexSign (truncNul b) (truncNul a) = 0 := by
      simpa [neg_eq_zero] using hl
    simp [hl, hl2]

theorem cmp_alpha_bytes_eq_keyCmp_of_ge (a b : List Nat)
    (hlen : b.length ≤ a.length) : cmp_alpha_bytes a b = keyCmp a b := by
  rcases Nat.lt_or_ge b.length a.length with hlt | hge
  · have h1 : a.length > b.length := hlt
    have hbt : b.take b.length = b := List.take_length b
    have hs : strncmpSign b.length a b =
        lexSign ((truncNul a).take b.length) (truncNul b) := by
      rw [strncmpSign_eq_lexSign, truncNul_take, truncNul_take]
      have : (truncNul b).take b.length = truncNul b :=
        List.take_of_length_le (truncNul_length_le b)
      rw [this]
    have hylen : (truncNul b).length ≤ b.length := truncNul_length_le b
    simp only [cmp_alpha_bytes, keyCmp, gt_iff_lt, if_pos h1]
    by_cases hz : lexSign ((truncNul a).take b.length) (truncNul b) = 0
    · have hxy : (truncNul a).take b.length = truncNul b :=
        (lexSign_eq_zero_iff _ _).mp hz
      have hsplit : (truncNul a).take b.length ++ (truncNul a).drop b.length
          = truncNul a := List.take_append_drop _ _
      by_cases hd : (truncNul a).drop b.length = []
      · have hta : truncNul a = truncNul b := by
          rw [← hsplit, hd, List.append_nil, hxy]
        have hzz : lexSign (truncNul a) (truncNul b) = 0 :=
          (lexSign_eq_zero_iff _ _).mpr hta
        have hna : ¬ a.length < b.length := by omega
        simp [hs, hz, hzz, hna, hlt]
      · have hta : truncNul a = truncNul b ++ (truncNul a).drop b.length := by
          rw [← hxy]
          exact hsplit.symm
        have hone : lexSign (truncNul a) (truncNul b) = 1 := by
          rw [hta]
          exact lexSign_append _ _ hd
        simp [hs, hz, hone]
    · have hlex : lexSign (truncNul a) (truncNul b) =
          lexSign ((truncNul a).take b.length) (truncNul b) :=
        lexSign_take (truncNul a) (truncNul b) b.length hylen hz
      simp [hs, hz, hlex]
  · have heq : a.length = b.length := by omega
    have h1 : ¬ a.length > b.length := by omega
    have h2 : ¬ a.length < b.length := by omega
    have hat : a.take a.length = a := List.take_length a
    have hbt : b.take a.length = b := by rw [heq]; exact List.take_length b
    have hs : strncmpSign a.length a b = lexSign (truncNul a) (truncNul b) := by
      rw [strncmpSign_eq_lexSign, hat, hbt]
    simp only [cmp_alpha_bytes, keyCmp, gt_iff_lt, if_neg h1, if_neg h2, hs]
    by_cases hz : lexSign (truncNul a) (truncNul b) = 0
    · simp [hz, h2, fun h => h1 h]
    · simp [hz]

theorem cmp_alpha_bytes_eq_keyCmp (a b : List Nat) :
    cmp_alpha_bytes a b = keyCmp a b := by
  rcases Nat.le_total b.length a.length with h | h
  · exact cmp_alpha_bytes_eq_keyCmp_of_ge a b h
  · rw [cmp_alpha_bytes_neg, cmp_alpha_bytes_eq_keyCmp_of_ge b a h, keyCmp_neg]
    exact neg_neg _

theorem cmp_alpha_neg (a b : match_t) : cmp_alpha a b = -cmp_alpha b a :=
  cmp_alpha_bytes_neg a.path b.path

theorem keyCmp_nonpos_iff (a b : List Nat) :
    keyCmp a b ≤ 0 ↔ (lexSign (truncNul a) (truncNul b) = -1 ∨
      (truncNul a = truncNul b ∧ a.length ≤ b.length)) := by
  unfold keyCmp
  by_cases hz : lexSign (truncNul a) (truncNul b) = 0
  · have heq : truncNul a = truncNul b := (lexSign_eq_zero_iff _ _).mp hz
    rw [if_pos hz]
    constructor
    · intro h
      refine Or.inr ⟨heq, ?_⟩
      rcases Nat.lt_trichotomy a.length b.length with hl | hl | hl
      · omega
      · omega
      · simp [Nat.lt_asymm hl, hl] at h
    · rintro (h | ⟨_, hlen⟩)
      · omega
      · have hnb : ¬ b.length < a.length := by omega
        by_cases hab : a.length < b.length
        · simp [hab]
        · simp [hab, hnb]
  · rw [if_neg hz]
    rcases lexSign_cases (truncNul a) (truncNul b) with h | h | h
    · simp [h]
    · exact absurd h hz
    · have hne : ¬ truncNul a = truncNul b := by
        intro he
        exact hz ((lexSign_eq_zero_iff _ _).mpr he)
      simp [h, hne]

theorem cmp_alpha_bytes_nonpos_trans (a b c : List Nat)
    (h1 : cmp_alpha_bytes a b ≤ 0) (h2 : cmp_alpha_bytes b c ≤ 0) :
    cmp_alpha_bytes a c ≤ 0 := by
  rw [cmp_alpha_bytes_eq_keyCmp] at h1 h2 ⊢
  rw [keyCmp_nonpos_iff] at h1 h2 ⊢
  rcases h1 with h1 | ⟨h1e, h1l⟩ <;> rcases h2 with h2 | ⟨h2e, h2l⟩
  · left
    have hle : lexSign (truncNul a) (truncNul c) ≤ 0 :=
      lexSign_le_trans (truncNul a) (truncNul b) (truncNul c) (by omega) (by omega)
    rcases lexSign_cases (truncNul a) (truncNul c) with h | h | h
    · exact h
    · exfalso
      have heq : truncNul a = truncNul c := (lexSign_eq_zero_iff _ _).mp h
      rw [heq] at h1
      have := lexSign_neg (truncNul c) (truncNul b)
      omega
    · omega
  · left
    rw [← h2e]
    exact h1
  · left
    rw [h1e]
    exact h2
  · exact Or.inr ⟨h1e.trans h2e, h1l.trans h2l⟩

theorem cmp_alpha_nonpos_trans (a b c : match_t)
    (h1 : cmp_alpha a b ≤ 0) (h2 : cmp_alpha b c ≤ 0) : cmp_alpha a c ≤ 0 :=
  cmp_alpha_bytes_nonpos_trans a.path b.path c.path h1 h2

theorem cmp_alpha_nonpos_total (a b : match_t) :
    cmp_alpha a b ≤ 0 ∨ cmp_alpha b a ≤ 0 := by
  have h := cmp_alpha_neg a b
  omega

theorem cmp_score_nonpos_iff (a b : match_t) :
    cmp_score a b ≤ 0 ↔
      (b.score < a.score ∨ (a.score = b.score ∧ cmp_alpha a b ≤ 0)) := by
  unfold cmp_score
  rcases lt_trichotomy a.score b.score with h | h | h
  · have h1 : ¬ a.score > b.score := not_lt_of_gt h
    simp [h1, h, not_lt_of_gt h, ne_of_lt h]
  · have h1 : ¬ a.score > b.score := by simp [h]
    have h2 : ¬ a.score < b.score := by simp [h]
    simp [h1, h2, h, lt_irrefl]
  · have h1 : a.score > b.score := h
    simp [h1, h]

theorem cmp_score_nonpos_trans (a b c : match_t)
    (h1 : cmp_score a b ≤ 0) (h2 : cmp_score b c ≤ 0) : cmp_score a c ≤ 0 := by
  rw [cmp_score_nonpos_iff] at h1 h2 ⊢
  rcases h1 with h1 | ⟨h1e, h1a⟩ <;> rcases h2 with h2 | ⟨h2e, h2a⟩
  · exact Or.inl (h2.trans h1)
  · exact Or.inl (h2e ▸ h1)
  · exact Or.inl (h1e ▸ h2)
  · exact Or.inr ⟨h1e.trans h2e, cmp_alpha_nonpos_trans a b c h1a h2a⟩

theorem cmp_score_neg (a b : match_t) : cmp_score a b = -cmp_score b a := by
  unfold cmp_score
  rcases lt_trichotomy a.score b.score with h | h | h
  · simp [h, not_lt_of_gt h, gt_iff_lt]
  · simp [h, lt_irrefl, cmp_alpha_neg a b]
  · simp [h, not_lt_of_gt h, gt_iff_lt]

theorem cmp_score_nonpos_total (a b : match_t) :
    cmp_score a b ≤ 0 ∨ cmp_score b a ≤ 0 := by
  have h := cmp_score_neg a b
  omega

theorem alpha_le_trans_bool : ∀ (a b c : match_t),
    decide (cmp_alpha a b ≤ 0) = true → decide (cmp_alpha b c ≤ 0) = true →
    decide (cmp_alpha a c ≤ 0) = true := by
  intro a b c hab hbc
  simp only [decide_eq_true_eq] at *
  exact cmp_alpha_nonpos_trans a b c hab hbc

theorem alpha_le_total_bool : ∀ (a b : match_t),
    (decide (cmp_alpha a b ≤ 0) || decide (cmp_alpha b a ≤ 0)) = true := by
  intro a b
  simpa using cmp_alpha_nonpos_total a b

theorem score_le_trans_bool : ∀ (a b c : match_t),
    decide (cmp_score a b ≤ 0) = true → decide (cmp_score b c ≤ 0) = true →
    decide (cmp_score a c ≤ 0) = true := by
  intro a b c hab hbc
  simp only [decide_eq_true_eq] at *
  exact cmp_score_nonpos_trans a b c hab hbc

theorem score_le_total_bool : ∀ (a b : match_t),
    (decide (cmp_score a b ≤ 0) || decide (cmp_score b a ≤ 0)) = true := by
  intro a b
  simpa using cmp_score_nonpos_total a b

theorem stride_step (T i j : Nat) (hT : 0 < T) (hne : j ≠ i) :
    (i ≤ j ∧ T ∣ (j - i)) ↔ (i + T ≤ j ∧ T ∣ (j - (i + T))) := by
  constructor
  · rintro ⟨hij, m, hm⟩
    cases m with
    | zero => omega
    | succ m =>
      have h2 : j - i = T * m + T := by rw [hm]; ring
      have h3 : i + T ≤ j := by omega
      exact ⟨h3, m, by omega⟩
  · rintro ⟨hij, m, hm⟩
    have hy : T * (m + 1) = T * m + T := by ring
    exact ⟨by omega, m + 1, by omega⟩

theorem match_thread_loop_length (scorer : List Nat → ℚ)
    (paths : List (List Nat)) (T : Nat) :
    ∀ (fuel i : Nat) (buf : List (Option match_t)),
      (match_thread_loop scorer paths T fuel i buf).length = buf.length := by
  intro fuel
  induction fuel with
  | zero => intro i buf; rfl
  | succ fuel ih =>
    intro i buf
    unfold match_thread_loop
    by_cases hi : i < paths.length
    · rw [if_pos hi, ih]
      simp [write_match]
    · rw [if_neg hi]

theorem match_thread_loop_getElem (scorer : List Nat → ℚ)
    (paths : List (List Nat)) (T : Nat) (hT : 0 < T) :
    ∀ (fuel i : Nat) (buf : List (Option match_t)) (j : Nat),
      buf.length = paths.length → paths.length - i ≤ fuel → j < paths.length →
      (match_thread_loop scorer paths T fuel i buf)[j]? =
        if i ≤ j ∧ T ∣ (j - i) then
          some (some (scored_match scorer (paths.getD j [])))
        else buf[j]? := by
  intro fuel
  induction fuel with
  | zero =>
    intro i buf j hb hfuel hj
    have hni : ¬ (i ≤ j ∧ T ∣ (j - i)) := by
      rintro ⟨h1, _⟩
      omega
    rw [if_neg hni]
    rfl
  | succ fuel ih =>
    intro i buf j hb hfuel hj
    unfold match_thread_loop
    by_cases hi : i < paths.length
    · rw [if_pos hi]
      rw [ih (i + T) (write_match scorer paths buf i) j
        (by simp [write_match, hb]) (by omega) hj]
      by_cases hji : j = i
      · subst hji
        have hc1 : ¬ (j + T ≤ j ∧ T ∣ (j - (j + T))) := by
          rintro ⟨h1, _⟩
          omega
        have hc2 : j ≤ j ∧ T ∣ (j - j) := ⟨le_refl j, by simp⟩
        rw [if_neg hc1, if_pos hc2]
        unfold write_match
        rw [List.getElem?_set_self (by omega)]
      · rw [show (write_match scorer paths buf i)[j]? = buf[j]? by
          unfold write_match
          exact List.getElem?_set_ne (fun h => hji h.symm)]
        by_cases hc : i ≤ j ∧ T ∣ (j - i)
        · rw [if_pos hc, if_pos ((stride_step T i j hT hji).mp hc)]
        · rw [if_neg hc, if_neg (fun h => hc ((stride_step T i j hT hji).mpr h))]
    · rw [if_neg hi]
      have hni : ¬ (i ≤ j ∧ T ∣ (j - i)) := by
        rintro ⟨h1, _⟩
        omega
      rw [if_neg hni]

theorem match_thread_getElem (scorer : List Nat → ℚ) (paths : List (List Nat))
    (T k : Nat) (hT : 0 < T) (buf : List (Option match_t))
    (hb : buf.length = paths.length) (j : Nat) (hj : j < paths.length) :
    (match_thread scorer paths T k buf)[j]? =
      if writes_to T k j then some (some (scored_match scorer (paths.getD j [])))
      else buf[j]? := by
  unfold match_thread writes_to
  exact match_thread_loop_getElem scorer paths T hT paths.length k buf j hb
    (by omega) hj

theorem match_thread_length (scorer : List Nat → ℚ) (paths : List (List Nat))
    (T k : Nat) (buf : List (Option match_t)) :
    (match_thread scorer paths T k buf).length = buf.length :=
  match_thread_loop_length scorer paths T paths.length k buf

theorem workers_foldl_length (scorer : List Nat → ℚ) (paths : List (List Nat))
    (T : Nat) : ∀ (ks : List Nat) (buf : List (Option match_t)),
    (ks.foldl (fun b k => match_thread scorer paths T k b) buf).length
      = buf.length := by
  intro ks
  induction ks with
  | nil => intro buf; rfl
  | cons k ks ih =>
    intro buf
    rw [List.foldl_cons, ih, match_thread_length]

theorem workers_foldl_getElem (scorer : List Nat → ℚ) (paths : List (List Nat))
    (T : Nat) (hT : 0 < T) :
    ∀ (ks : List Nat) (buf : List (Option match_t)),
      buf.length = paths.length → ∀ j, j < paths.length →
      (ks.foldl (fun b k => match_thread scorer paths T k b) buf)[j]? =
        if ∃ k ∈ ks, writes_to T k j then
          some (some (scored_match scorer (paths.getD j [])))
        else buf[j]? := by
  intro ks
  induction ks with
  | nil =>
    intro buf hb j hj
    simp
  | cons k ks ih =>
    intro buf hb j hj
    rw [List.foldl_cons, ih (match_thread scorer paths T k buf)
      (by rw [match_thread_length, hb]) j hj]
    by_cases h1 : ∃ k' ∈ ks, writes_to T k' j
    · rcases h1 with ⟨k', hk', hw⟩
      rw [if_pos ⟨k', hk', hw⟩, if_pos ⟨k', List.mem_cons_of_mem k hk', hw⟩]
    · rw [if_neg h1, match_thread_getElem scorer paths T k hT buf hb j hj]
      by_cases h2 : writes_to T k j
      · rw [if_pos h2, if_pos ⟨k, List.mem_cons_self k ks, h2⟩]
      · rw [if_neg h2, if_neg ?_]
        rintro ⟨k', hk', hw⟩
        rcases List.mem_cons.mp hk' with rfl | hk'
        · exact h2 hw
        · exact h1 ⟨k', hk', hw⟩

theorem distribute_length (scorer : List Nat → ℚ) (paths : List (List Nat))
    (T : Nat) : (distribute scorer paths T).length = paths.length := by
  unfold distribute
  rw [workers_foldl_length]
  exact List.length_replicate _ _

theorem distribute_getElem (scorer : List Nat → ℚ) (paths : List (List Nat))
    (T : Nat) (hT : 0 < T) (j : Nat) (hj : j < paths.length) :
    (distribute scorer paths T)[j]? =
      some (some (scored_match scorer (paths.getD j []))) := by
  unfold distribute
  rw [workers_foldl_getElem scorer paths T hT (List.range T)
    (List.replicate paths.length none) (List.length_replicate _ _) j hj]
  have hex : ∃ k ∈ List.range T, writes_to T k j := by
    refine ⟨j % T, List.mem_range.mpr (Nat.mod_lt j hT), Nat.mod_le j T, j / T, ?_⟩
    have := Nat.mod_add_div j T
    omega
  rw [if_pos hex]

theorem distribute_eq_map (scorer : List Nat → ℚ) (paths : List (List Nat))
    (T : Nat) (hT : 0 < T) :
    distribute scorer paths T =
      paths.map (fun p => some (scored_match scorer p)) := by
  apply List.ext_getElem?
  intro j
  by_cases hj : j < paths.length
  · rw [distribute_getElem scorer paths T hT j hj]
    rw [List.getElem?_map]
    rw [List.getElem?_eq_getElem hj]
    rw [List.getD_eq_getElem paths [] hj]
    rfl
  · rw [List.getElem?_eq_none (by rw [distribute_length]; omega)]
    rw [List.getElem?_eq_none (by rw [List.length_map]; omega)]

theorem read_buffer_distribute (scorer : List Nat → ℚ) (paths : List (List Nat))
    (T : Nat) (hT : 0 < T) :
    read_buffer (distribute scorer paths T) = paths.map (scored_match scorer) := by
  rw [distribute_eq_map scorer paths T hT]
  unfold read_buffer
  rw [List.map_map]
  rfl

theorem writes_to_iff_mod (T j k : Nat) (hk : k < T) :
    writes_to T k j ↔ k = j % T := by
  constructor
  · rintro ⟨hkj, m, hm⟩
    have hj : j = k + T * m := by omega
    rw [hj, Nat.add_mul_mod_self_left, Nat.mod_eq_of_lt hk]
  · rintro rfl
    refine ⟨Nat.mod_le j T, j / T, ?_⟩
    have := Nat.mod_add_div j T
    omega

theorem match_thread_loop_mem (scorer : List Nat → ℚ) (paths : List (List Nat))
    (T : Nat) :
    ∀ (fuel i : Nat) (buf : List (Option match_t)),
      (∀ x ∈ buf, x = none ∨ ∃ p ∈ paths, x = some (scored_match scorer p)) →
      ∀ x ∈ match_thread_loop scorer paths T fuel i buf,
        x = none ∨ ∃ p ∈ paths, x = some (scored_match scorer p) := by
  intro fuel
  induction fuel with
  | zero => intro i buf hbuf; exact hbuf
  | succ fuel ih =>
    intro i buf hbuf
    unfold match_thread_loop
    by_cases hi : i < paths.length
    · rw [if_pos hi]
      apply ih
      intro x hx
      unfold write_match at hx
      rcases List.mem_or_eq_of_mem_set hx with hx | rfl
      · exact hbuf x hx
      · refine Or.inr ⟨paths.getD i [], ?_, rfl⟩
        rw [List.getD_eq_getElem paths [] hi]
        exact List.getElem_mem hi
    · rw [if_neg hi]
      exact hbuf

theorem workers_foldl_mem (scorer : List Nat → ℚ) (paths : List (List Nat))
    (T : Nat) :
    ∀ (ks : List Nat) (buf : List (Option match_t)),
      (∀ x ∈ buf, x = none ∨ ∃ p ∈ paths, x = some (scored_match scorer p)) →
      ∀ x ∈ ks.foldl (fun b k => match_thread scorer paths T k b) buf,
        x = none ∨ ∃ p ∈ paths, x = some (scored_match scorer p) := by
  intro ks
  induction ks with
  | nil =>
    intro buf hbuf x hx
    rw [List.foldl_nil] at hx
    exact hbuf x hx
  | cons k ks ih =>
    intro buf hbuf
    rw [List.foldl_cons]
    apply ih
    intro x hx
    exact match_thread_loop_mem scorer paths T paths.length k buf hbuf x hx

theorem distribute_mem (scorer : List Nat → ℚ) (paths : List (List Nat))
    (T : Nat) :
    ∀ x ∈ distribute scorer paths T,
      x = none ∨ ∃ p ∈ paths, x = some (scored_match scorer p) := by
  unfold distribute
  apply workers_foldl_mem
  intro x hx
  exact Or.inl (List.eq_of_mem_replicate hx)

theorem read_buffer_mem (scorer : List Nat → ℚ) (paths : List (List Nat))
    (T : Nat) :
    ∀ m ∈ read_buffer (distribute scorer paths T),
      m = ⟨[], 0⟩ ∨ ∃ p ∈ paths, m = scored_match scorer p := by
  intro m hm
  unfold read_buffer at hm
  rcases List.mem_map.mp hm with ⟨o, ho, rfl⟩
  rcases distribute_mem scorer paths T o ho with rfl | ⟨p, hp, rfl⟩
  · exact Or.inl rfl
  · exact Or.inr ⟨p, hp, rfl⟩

theorem collectResults_eq (ms : List match_t) :
    ∀ limit : Int, collectResults ms limit =
      ((ms.filter (fun m => decide (0 < m.score))).map match_t.path).take
        limit.toNat := by
  induction ms with
  | nil => intro limit; simp [collectResults]
  | cons m rest ih =>
    intro limit
    unfold collectResults
    by_cases hl : 0 < limit
    · rw [if_pos hl]
      by_cases hs : 0 < m.score
      · rw [if_pos hs, ih (limit - 1)]
        have hfil : (m :: rest).filter (fun m => decide (0 < m.score)) =
            m :: rest.filter (fun m => decide (0 < m.score)) := by
          simp [List.filter_cons, hs]
        have htn : limit.toNat = (limit - 1).toNat + 1 := by omega
        rw [hfil, List.map_cons, htn, List.take_succ_cons]
      · rw [if_neg hs, ih limit]
        have hfil : (m :: rest).filter (fun m => decide (0 < m.score)) =
            rest.filter (fun m => decide (0 < m.score)) := by
          simp [List.filter_cons, hs]
        rw [hfil]
    · rw [if_neg hl]
      have htn : limit.toNat = 0 := by omega
      rw [htn, List.take_zero]

theorem sort_matches_perm (sort_option : Option Bool) (abb : List Nat)
    (ms : List match_t) : (sort_matches sort_option abb ms).Perm ms := by
  unfold sort_matches
  by_cases h1 : sort_option = none ∨ sort_option = some true
  · rw [if_pos h1]
    by_cases h2 : abb = [] ∨ abb = [46]
    · rw [if_pos h2]
      exact List.mergeSort_perm ms _
    · rw [if_neg h2]
      exact List.mergeSort_perm ms _
  · rw [if_neg h1]

theorem sort_matches_length (sort_option : Option Bool) (abb : List Nat)
    (ms : List match_t) : (sort_matches sort_option abb ms).length = ms.length :=
  (sort_matches_perm sort_option abb ms).length_eq

theorem sort_matches_alpha_sorted (sort_option : Option Bool) (abb : List Nat)
    (ms : List match_t) (hsort : sort_option = none ∨ sort_option = some true)
    (hab : abb = [] ∨ abb = [46]) :
    (sort_matches sort_option abb ms).Pairwise (fun a b => cmp_alpha a b ≤ 0) := by
  unfold sort_matches
  rw [if_pos hsort, if_pos hab]
  have h := List.sorted_mergeSort alpha_le_trans_bool alpha_le_total_bool ms
  exact h.imp (fun hab => by simpa using hab)

theorem sort_matches_score_sorted (sort_option : Option Bool) (abb : List Nat)
    (ms : List match_t) (hsort : sort_option = none ∨ sort_option = some true)
    (hab : ¬ (abb = [] ∨ abb = [46])) :
    (sort_matches sort_option abb ms).Pairwise (fun a b => cmp_score a b ≤ 0) := by
  unfold sort_matches
  rw [if_pos hsort, if_neg hab]
  have h := List.sorted_mergeSort score_le_trans_bool score_le_total_bool ms
  exact h.imp (fun hab => by simpa using hab)

theorem sorted_matches_for_some (scorer : List Nat → List Nat → ℚ)
    (self : CommandTMatcher) (abbrev0 : List Nat) (o : MatchOptions) :
    CommandTMatcher_sorted_matches_for scorer self (some abbrev0) (some o) =
      .ok (collectResults
        (sort_matches o.sort
          (normalize_abbrev abbrev0 o.case_sensitive o.ignore_spaces)
          (read_buffer (distribute
            (scorer (normalize_abbrev abbrev0 o.case_sensitive o.ignore_spaces))
            self.scanner
            (effective_thread_count self.scanner.length o.threads).toNat)))
        (limit_value o.limit self.scanner.length)) := rfl

/-- Claim C7: the effective worker count is forced to 1 whenever the
candidate count is below the fixed threshold 1000, regardless of the
requested count; at or above 1000 candidates the requested count is
used. -/
theorem claim_C7_thread_threshold (path_count : Nat)
    (threads_option : Option Int) (v : Int) :
    (path_count < 1000 → effective_thread_count path_count threads_option = 1) ∧
    (1000 ≤ path_count → effective_thread_count path_count (some v) = v) := by
  constructor
  · intro h
    simp [effective_thread_count, h]
  · intro h
    simp [effective_thread_count, show ¬ path_count < 1000 by omega]

theorem claim_C7_witness :
    effective_thread_count 999 (some 8) = 1 ∧
      effective_thread_count 1000 (some 8) = 8 :=
  ⟨(claim_C7_thread_threshold 999 (some 8) 8).1 (by decide),
   (claim_C7_thread_threshold 1000 (some 8) 8).2 (by decide)⟩

/-- Claim C8: construction with a nil scanner and a ranking call with a
nil abbreviation each fail synchronously with an invalid-argument error;
the error is the same for every scorer, candidate set and option hash, so
no scoring, buffer or worker work contributes to the outcome. -/
theorem claim_C8_nil_arguments :
    (∀ options : Option InitOptions,
      CommandTMatcher_init none options = .error "nil scanner") ∧
    (∀ (scorer : List Nat → List Nat → ℚ) (self : CommandTMatcher)
        (options : Option MatchOptions),
      CommandTMatcher_sorted_matches_for scorer self none options =
        .error "nil abbrev") :=
  ⟨fun _ => rfl, fun _ _ _ => rfl⟩

/-- Claim C10: a negative limit option makes `sorted_matches_for` collect
nothing: the forward pass's `limit > 0` guard fails immediately, so the
result is the empty list (only exactly 0 or an absent limit means
unlimited). -/
theorem claim_C10_negative_limit (scorer : List Nat → List Nat → ℚ)
    (self : CommandTMatcher) (abbrev0 : List Nat)
    (cs : Option Bool) (thr : Option Int) (so : Option Bool) (ign : Option Bool)
    (L : Int) (hL : L < 0) :
    CommandTMatcher_sorted_matches_for scorer self (some abbrev0)
      (some ⟨cs, some L, thr, so, ign⟩) = .ok [] := by
  rw [sorted_matches_for_some]
  have hlv : limit_value (some L) self.scanner.length = L := by
    unfold limit_value
    simp [show ¬ L = 0 by omega]
  rw [show (⟨cs, some L, thr, so, ign⟩ : MatchOptions).limit = some L from rfl,
    hlv, collectResults_eq, show L.toNat = 0 by omega, List.take_zero]

theorem claim_C10_witness :
    (-3 : Int) < 0 ∧
      CommandTMatcher_sorted_matches_for (fun _ _ => 1) ⟨[[97]], none, none⟩
        (some [97]) (some ⟨none, some (-3), none, none, none⟩) = .ok [] :=
  ⟨by decide,
   claim_C10_negative_limit (fun _ _ => 1) ⟨[[97]], none, none⟩ [97]
     none none none none (-3) (by decide)⟩

/-- Claim C4: for any worker count `T ≥ 1` the striped distribution
invokes the scorer on every candidate exactly once — every buffer index
below the candidate count is written by exactly one worker, worker `k`
touches exactly the slots `writes_to T k` describes, and the completed
buffer is index-aligned with the input: slot `j` holds the scored match
of candidate `j`. -/
theorem claim_C4_stripe_distribution (scorer1 : List Nat → ℚ)
    (paths : List (List Nat)) (T : Nat) (hT : 1 ≤ T) :
    (∀ j < paths.length, ∃! k, k < T ∧ writes_to T k j) ∧
    (∀ (k : Nat) (buf : List (Option match_t)), buf.length = paths.length →
      ∀ j < paths.length, (match_thread scorer1 paths T k buf)[j]? =
        if writes_to T k j then
          some (some (scored_match scorer1 (paths.getD j [])))
        else buf[j]?) ∧
    distribute scorer1 paths T =
      paths.map (fun p => some (scored_match scorer1 p)) := by
  refine ⟨?_, ?_, distribute_eq_map scorer1 paths T hT⟩
  · intro j _
    refine ⟨j % T, ⟨Nat.mod_lt j hT,
      (writes_to_iff_mod T j (j % T) (Nat.mod_lt j hT)).mpr rfl⟩, ?_⟩
    rintro k ⟨hk, hw⟩
    exact (writes_to_iff_mod T j k hk).mp hw
  · intro k buf hb j hj
    exact match_thread_getElem scorer1 paths T k hT buf hb j hj

theorem claim_C4_witness :
    (∀ j < ([[97], [98], [99]] : List (List Nat)).length,
      ∃! k, k < 2 ∧ writes_to 2 k j) ∧
    (∀ (k : Nat) (buf : List (Option match_t)),
      buf.length = ([[97], [98], [99]] : List (List Nat)).length →
      ∀ j < ([[97], [98], [99]] : List (List Nat)).length,
      (match_thread (fun p => (p.length : ℚ)) [[97], [98], [99]] 2 k buf)[j]? =
        if writes_to 2 k j then
          some (some (scored_match (fun p => (p.length : ℚ))
            ([[97], [98], [99]].getD j [])))
        else buf[j]?) ∧
    distribute (fun p => (p.length : ℚ)) [[97], [98], [99]] 2 =
      [[97], [98], [99]].map
        (fun p => some (scored_match (fun p => (p.length : ℚ)) p)) :=
  claim_C4_stripe_distribution (fun p => (p.length : ℚ)) [[97], [98], [99]] 2
    (by decide)

/-- Claim C1: the result of `sorted_matches_for` does not depend on the
worker count — for any two requested thread options whose effective counts
are at least one worker, the returned sequences are identical (the model
is a pure function, so repeated calls with identical inputs are identical
by construction). -/
theorem claim_C1_worker_invariance (scorer : List Nat → List Nat → ℚ)
    (self : CommandTMatcher) (abbrev_arg : Option (List Nat))
    (cs : Option Bool) (lim : Option Int) (so : Option Bool) (ign : Option Bool)
    (t t' : Option Int)
    (h : 1 ≤ effective_thread_count self.scanner.length t)
    (h' : 1 ≤ effective_thread_count self.scanner.length t') :
    CommandTMatcher_sorted_matches_for scorer self abbrev_arg
      (some ⟨cs, lim, t, so, ign⟩) =
    CommandTMatcher_sorted_matches_for scorer self abbrev_arg
      (some ⟨cs, lim, t', so, ign⟩) := by
  cases abbrev_arg with
  | none => rfl
  | some abbrev0 =>
    rw [sorted_matches_for_some, sorted_matches_for_some]
    rw [show (⟨cs, lim, t, so, ign⟩ : MatchOptions).threads = t from rfl,
      show (⟨cs, lim, t', so, ign⟩ : MatchOptions).threads = t' from rfl]
    rw [read_buffer_distribute _ _ _ (by omega),
      read_buffer_distribute _ _ _ (by omega)]

theorem claim_C1_witness :
    1 ≤ effective_thread_count
      (CommandTMatcher.scanner ⟨[[97], [98]], none, none⟩).length (some 3) ∧
    1 ≤ effective_thread_count
      (CommandTMatcher.scanner ⟨[[97], [98]], none, none⟩).length (some 7) ∧
    CommandTMatcher_sorted_matches_for (fun _ _ => 1) ⟨[[97], [98]], none, none⟩
      (some [97]) (some ⟨none, none, some 3, none, none⟩) =
    CommandTMatcher_sorted_matches_for (fun _ _ => 1) ⟨[[97], [98]], none, none⟩
      (some [97]) (some ⟨none, none, some 7, none, none⟩) :=
  ⟨by decide, by decide,
   claim_C1_worker_invariance (fun _ _ => 1) ⟨[[97], [98]], none, none⟩
     (some [97]) none none none none (some 3) (some 7) (by decide) (by decide)⟩

/-- Claim C6: no candidate whose computed score is non-positive appears in
the output of `sorted_matches_for` — every path in the returned list has a
strictly positive score under the active scorer and normalized
abbreviation. -/
theorem claim_C6_no_nonpositive_output (scorer : List Nat → List Nat → ℚ)
    (self : CommandTMatcher) (abbrev0 : List Nat)
    (cs : Option Bool) (lim : Option Int) (thr : Option Int) (so : Option Bool)
    (ign : Option Bool) (out : List (List Nat)) (p : List Nat)
    (hres : CommandTMatcher_sorted_matches_for scorer self (some abbrev0)
      (some ⟨cs, lim, thr, so, ign⟩) = .ok out)
    (hp : p ∈ out) :
    0 < scorer (normalize_abbrev abbrev0 cs ign) p := by
  rw [sorted_matches_for_some] at hres
  have hout := (Except.ok.inj hres).symm
  subst hout
  rw [collectResults_eq] at hp
  have hp2 := List.mem_of_mem_take hp
  rcases List.mem_map.mp hp2 with ⟨m, hm, rfl⟩
  have hmf := List.mem_filter.mp hm
  have hms : 0 < m.score := by simpa using hmf.2
  have hmem : m ∈ read_buffer (distribute
      (scorer (normalize_abbrev abbrev0 cs ign)) self.scanner
      (effective_thread_count self.scanner.length thr).toNat) :=
    (sort_matches_perm _ _ _).subset hmf.1
  rcases read_buffer_mem _ _ _ m hmem with rfl | ⟨q, _, rfl⟩
  · exact absurd hms (by simp)
  · simpa [scored_match] using hms

unseal List.merge List.mergeSort in
theorem claim_C6_witness :
    (CommandTMatcher_sorted_matches_for (fun _ p => (p.length : ℚ))
      ⟨[[97]], none, none⟩ (some [98])
      (some ⟨none, none, none, none, none⟩) = .ok [[97]]) ∧
    [97] ∈ ([[97]] : List (List Nat)) ∧
    0 < (fun _ p => (p.length : ℚ)) (normalize_abbrev [98] none none) [97] :=
  ⟨by rfl, by decide,
   claim_C6_no_nonpositive_output (fun _ p => (p.length : ℚ))
     ⟨[[97]], none, none⟩ [98] none none none none none [[97]] [97]
     (by rfl) (by decide)⟩

/-- Claim C5: for any limit `L ≥ 1` the output is exactly the first `L`
elements of the unlimited ranked result (in particular its length is at
most `L`), and a limit of exactly 0 behaves like an absent limit
(unlimited). -/
theorem claim_C5_limit_enforcement (scorer : List Nat → List Nat → ℚ)
    (self : CommandTMatcher) (abbrev0 : List Nat)
    (cs : Option Bool) (thr : Option Int) (so : Option Bool) (ign : Option Bool)
    (L : Int) (hL : 1 ≤ L) :
    (CommandTMatcher_sorted_matches_for scorer self (some abbrev0)
        (some ⟨cs, some L, thr, so, ign⟩) =
      Except.map (fun r => r.take L.toNat)
        (CommandTMatcher_sorted_matches_for scorer self (some abbrev0)
          (some ⟨cs, none, thr, so, ign⟩))) ∧
    (∀ out, CommandTMatcher_sorted_matches_for scorer self (some abbrev0)
        (some ⟨cs, some L, thr, so, ign⟩) = .ok out →
      out.length ≤ L.toNat) ∧
    (CommandTMatcher_sorted_matches_for scorer self (some abbrev0)
        (some ⟨cs, some 0, thr, so, ign⟩) =
      CommandTMatcher_sorted_matches_for scorer self (some abbrev0)
        (some ⟨cs, none, thr, so, ign⟩)) := by
  have hms : ∀ lim : Option Int,
      CommandTMatcher_sorted_matches_for scorer self (some abbrev0)
        (some ⟨cs, lim, thr, so, ign⟩) =
      .ok (collectResults
        (sort_matches so (normalize_abbrev abbrev0 cs ign)
          (read_buffer (distribute
            (scorer (normalize_abbrev abbrev0 cs ign)) self.scanner
            (effective_thread_count self.scanner.length thr).toNat)))
        (limit_value lim self.scanner.length)) := fun lim => rfl
  set S := sort_matches so (normalize_abbrev abbrev0 cs ign)
    (read_buffer (distribute
      (scorer (normalize_abbrev abbrev0 cs ign)) self.scanner
      (effective_thread_count self.scanner.length thr).toNat)) with hS
  have hSlen : S.length = self.scanner.length := by
    rw [hS, sort_matches_length]
    unfold read_buffer
    rw [List.length_map, distribute_length]
  have hXlen : ((S.filter (fun m => decide (0 < m.score))).map
      match_t.path).length ≤ self.scanner.length := by
    rw [List.length_map]
    calc (S.filter (fun m => decide (0 < m.score))).length ≤ S.length :=
        List.length_filter_le _ _
    _ = self.scanner.length := hSlen
  have hnone : limit_value none self.scanner.length =
      (self.scanner.length : Int) := rfl
  have hzero : limit_value (some 0) self.scanner.length =
      (self.scanner.length : Int) := rfl
  have hL' : limit_value (some L) self.scanner.length = L := by
    unfold limit_value
    simp [show ¬ L = 0 by omega]
  have hfull : collectResults S (limit_value none self.scanner.length) =
      (S.filter (fun m => decide (0 < m.score))).map match_t.path := by
    rw [hnone, collectResults_eq]
    exact List.take_of_length_le (by omega)
  refine ⟨?_, ?_, ?_⟩
  · rw [hms (some L), hms none, hfull, Except.map, hL', collectResults_eq]
  · intro out hout
    rw [hms (some L)] at hout
    have := (Except.ok.inj hout).symm
    subst this
    rw [hL', collectResults_eq]
    exact List.length_take_le _ _
  · rw [hms (some 0), hms none, hzero, hnone]

theorem claim_C5_witness :
    (1 : Int) ≤ 1 ∧
    (CommandTMatcher_sorted_matches_for (fun _ _ => 1) ⟨[[97], [98]], none, none⟩
        (some [99]) (some ⟨none, some 1, none, none, none⟩) =
      Except.map (fun r => r.take (1 : Int).toNat)
        (CommandTMatcher_sorted_matches_for (fun _ _ => 1)
          ⟨[[97], [98]], none, none⟩ (some [99])
          (some ⟨none, none, none, none, none⟩))) :=
  ⟨by decide,
   (claim_C5_limit_enforcement (fun _ _ => 1) ⟨[[97], [98]], none, none⟩
     [99] none none none none 1 (by decide)).1⟩

theorem truncNul_eq_self_of_not_mem (l : List Nat) (h : (0 : Nat) ∉ l) :
    truncNul l = l := by
  induction l with
  | nil => rfl
  | cons a l ih =>
    have ha : a ≠ 0 := fun hz => h (hz ▸ List.mem_cons_self a l)
    have h2 : (0 : Nat) ∉ l := fun hm => h (List.mem_cons_of_mem _ hm)
    unfold truncNul at ih ⊢
    rw [List.takeWhile_cons, if_pos (by simpa using ha), ih h2]

theorem truncNul_eq_self_of_length (l : List Nat)
    (h : (truncNul l).length = l.length) : truncNul l = l :=
  (List.takeWhile_sublist _).eq_of_length h

theorem cmp_alpha_bytes_self (p : List Nat) : cmp_alpha_bytes p p = 0 := by
  rw [cmp_alpha_bytes_eq_keyCmp]
  unfold keyCmp
  rw [if_pos ((lexSign_eq_zero_iff _ _).mpr rfl)]
  simp

/-- Claim C9 counterexample: `cmp_alpha` can return 0 for two matches
whose paths differ, because `strncmp` stops comparing at a NUL byte: the
paths `[0, 49]` and `[0, 50]` have equal length and a leading NUL, so
`cmp_alpha` reports equality although the byte strings are different. -/
theorem claim_C9_counterexample :
    cmp_alpha ⟨[0, 49], 0⟩ ⟨[0, 50], 0⟩ = 0 ∧
      match_t.path ⟨[0, 49], 0⟩ ≠ match_t.path ⟨[0, 50], 0⟩ := by
  constructor
  · decide
  · decide

/-- Claim C9 (amended): the sign of `cmp_alpha` is always the opposite of
the sign of its flipped application, and for paths containing no NUL byte
`cmp_alpha a b = 0` holds exactly when the two path strings are equal
(same length and identical bytes).  The unrestricted zero-equality claim
fails on paths with embedded NUL bytes. -/
theorem claim_C9_alpha_strict_order (a b : match_t) :
    cmp_alpha a b = -cmp_alpha b a ∧
    ((0 : Nat) ∉ a.path → (cmp_alpha a b = 0 ↔ a.path = b.path)) := by
  refine ⟨cmp_alpha_neg a b, fun h0 => ⟨fun hz => ?_, fun hpq => ?_⟩⟩
  · unfold cmp_alpha at hz
    rw [cmp_alpha_bytes_eq_keyCmp] at hz
    unfold keyCmp at hz
    by_cases hl : lexSign (truncNul a.path) (truncNul b.path) = 0
    · rw [if_pos hl] at hz
      have heq : truncNul a.path = truncNul b.path :=
        (lexSign_eq_zero_iff _ _).mp hl
      have hlen : a.path.length = b.path.length := by
        rcases Nat.lt_trichotomy a.path.length b.path.length with h | h | h
        · rw [if_pos h] at hz
          omega
        · exact h
        · rw [if_neg (by omega), if_pos h] at hz
          omega
      have hta : truncNul a.path = a.path := truncNul_eq_self_of_not_mem _ h0
      have htb : truncNul b.path = b.path := by
        apply truncNul_eq_self_of_length
        have h1 : (truncNul b.path).length = a.path.length := by
          rw [← heq, hta]
        omega
      rw [hta, htb] at heq
      exact heq
    · rw [if_neg hl] at hz
      exact absurd hz hl
  · unfold cmp_alpha
    rw [hpq]
    exact cmp_alpha_bytes_self b.path

theorem claim_C9_witness :
    (0 : Nat) ∉ match_t.path ⟨[97, 98], 1⟩ ∧
    (cmp_alpha ⟨[97, 98], 1⟩ ⟨[97], 2⟩ = -cmp_alpha ⟨[97], 2⟩ ⟨[97, 98], 1⟩ ∧
      (cmp_alpha ⟨[97, 98], 1⟩ ⟨[97], 2⟩ = 0 ↔
        match_t.path ⟨[97, 98], 1⟩ = match_t.path ⟨[97], 2⟩)) :=
  ⟨by decide,
   ⟨(claim_C9_alpha_strict_order ⟨[97, 98], 1⟩ ⟨[97], 2⟩).1,
    (claim_C9_alpha_strict_order ⟨[97, 98], 1⟩ ⟨[97], 2⟩).2 (by decide)⟩⟩

theorem collectResults_all_pos (ms : List match_t) (lim : Int)
    (hpos : ∀ m ∈ ms, 0 < m.score) (hlim : (ms.length : Int) ≤ lim) :
    collectResults ms lim = ms.map match_t.path := by
  rw [collectResults_eq]
  rw [List.filter_eq_self.mpr (fun m hm => by simpa using hpos m hm)]
  apply List.take_of_length_le
  rw [List.length_map]
  omega

unseal List.merge List.mergeSort in
/-- Claim C2 counterexample: for the empty pattern the output is not
always the full candidate set sorted alphabetically, because the final
pass still filters out candidates with score 0.  With the single
dot-hidden candidate `".a"` and the spec-modelled empty-pattern scorer
(dot files suppressed under default flags, hence score 0), the full
alphabetically sorted candidate set is `[".a"]` but the call returns
`[]`. -/
theorem claim_C2_counterexample :
    CommandTMatcher_sorted_matches_for (fun _ => emptyPatternDefaultScore)
        ⟨[[46, 97]], none, none⟩ (some [])
        (some ⟨none, none, none, none, none⟩) = .ok [] ∧
      ([] : List (List Nat)) ≠ [[46, 97]] := by
  constructor
  · rfl
  · decide

/-- Claim C2 (amended): for the (normalized) pattern `""` or `"."` with
sorting enabled, no limit and an effective worker count of at least one,
the output of `sorted_matches_for` is, for every candidate set and every
scorer, exactly the positive-scoring candidates in alphabetic order: a
permutation of the positive-scoring subset of the candidate set, pairwise
ordered by `cmp_alpha`; and it is a permutation of the full candidate set
precisely when every candidate scores positively.  The unrestricted claim
fails because candidates with score 0 (e.g. suppressed dot files) are
filtered out even under the alphabetic comparator. -/
theorem claim_C2_alphabetic_fallback (scorer : List Nat → List Nat → ℚ)
    (self : CommandTMatcher) (abbrev0 : List Nat)
    (cs : Option Bool) (thr : Option Int) (so : Option Bool) (ign : Option Bool)
    (hpat : normalize_abbrev abbrev0 cs ign = [] ∨
      normalize_abbrev abbrev0 cs ign = [46])
    (hsort : so = none ∨ so = some true)
    (hT : 1 ≤ effective_thread_count self.scanner.length thr) :
    ∃ out, CommandTMatcher_sorted_matches_for scorer self (some abbrev0)
        (some ⟨cs, none, thr, so, ign⟩) = .ok out ∧
      out.Perm (self.scanner.filter
        (fun p => decide (0 < scorer (normalize_abbrev abbrev0 cs ign) p))) ∧
      out.Pairwise (fun p q => cmp_alpha_bytes p q ≤ 0) ∧
      (out.Perm self.scanner ↔
        ∀ p ∈ self.scanner,
          0 < scorer (normalize_abbrev abbrev0 cs ign) p) := by
  have hms : CommandTMatcher_sorted_matches_for scorer self (some abbrev0)
      (some ⟨cs, none, thr, so, ign⟩) =
      .ok (collectResults
        (sort_matches so (normalize_abbrev abbrev0 cs ign)
          (read_buffer (distribute
            (scorer (normalize_abbrev abbrev0 cs ign)) self.scanner
            (effective_thread_count self.scanner.length thr).toNat)))
        ((self.scanner.length : Int))) := rfl
  have hbuf : read_buffer (distribute
      (scorer (normalize_abbrev abbrev0 cs ign)) self.scanner
      (effective_thread_count self.scanner.length thr).toNat) =
      self.scanner.map (scored_match (scorer (normalize_abbrev abbrev0 cs ign))) :=
    read_buffer_distribute _ _ _ (by omega)
  rw [hbuf] at hms
  set na := normalize_abbrev abbrev0 cs ign with hna
  set S := sort_matches so na (self.scanner.map (scored_match (scorer na)))
    with hS
  have hperm : S.Perm (self.scanner.map (scored_match (scorer na))) :=
    sort_matches_perm so na _
  have hSlen : S.length = self.scanner.length := by
    rw [hperm.length_eq, List.length_map]
  have hout : collectResults S ((self.scanner.length : Int)) =
      (S.filter (fun m => decide (0 < m.score))).map match_t.path := by
    rw [collectResults_eq, Int.toNat_natCast]
    apply List.take_of_length_le
    rw [List.length_map]
    calc (S.filter (fun m => decide (0 < m.score))).length ≤ S.length :=
        List.length_filter_le _ _
    _ = self.scanner.length := hSlen
  have hpermf : (S.filter (fun m => decide (0 < m.score))).Perm
      ((self.scanner.map (scored_match (scorer na))).filter
        (fun m => decide (0 < m.score))) :=
    hperm.filter _
  have hfm : (self.scanner.map (scored_match (scorer na))).filter
      (fun m => decide (0 < m.score)) =
      (self.scanner.filter (fun p => decide (0 < scorer na p))).map
        (scored_match (scorer na)) := by
    rw [List.filter_map (scored_match (scorer na)) self.scanner]
    rfl
  have hperm_out : ((S.filter (fun m => decide (0 < m.score))).map
      match_t.path).Perm
      (self.scanner.filter (fun p => decide (0 < scorer na p))) := by
    have h1 := hpermf.map match_t.path
    rw [hfm, List.map_map] at h1
    have h2 : (self.scanner.filter (fun p => decide (0 < scorer na p))).map
        (match_t.path ∘ scored_match (scorer na)) =
        self.scanner.filter (fun p => decide (0 < scorer na p)) := by
      have h3 : (match_t.path ∘ scored_match (scorer na)) = id :=
        funext (fun p => rfl)
      rw [h3, List.map_id]
    rw [h2] at h1
    exact h1
  refine ⟨(S.filter (fun m => decide (0 < m.score))).map match_t.path,
    by rw [hms, hout], hperm_out, ?_, ?_⟩
  · have hsorted := sort_matches_alpha_sorted so na
      (self.scanner.map (scored_match (scorer na))) hsort hpat
    rw [List.pairwise_map]
    exact (hsorted.filter _).imp (fun h => h)
  · constructor
    · intro hfull
      have hp2 : (self.scanner.filter
          (fun p => decide (0 < scorer na p))).Perm self.scanner :=
        hperm_out.symm.trans hfull
      have heq : self.scanner.filter (fun p => decide (0 < scorer na p)) =
          self.scanner :=
        (List.filter_sublist self.scanner).eq_of_length hp2.length_eq
      intro p hp
      exact of_decide_eq_true (List.filter_eq_self.mp heq p hp)
    · intro hall
      have heq2 : self.scanner.filter (fun p => decide (0 < scorer na p)) =
          self.scanner :=
        List.filter_eq_self.mpr (fun p hp => by simpa using hall p hp)
      have h1 := hperm_out
      rw [heq2] at h1
      exact h1

theorem claim_C2_witness :
    (normalize_abbrev [] none none = [] ∨ normalize_abbrev [] none none = [46]) ∧
    ((none : Option Bool) = none ∨ (none : Option Bool) = some true) ∧
    1 ≤ effective_thread_count
      (CommandTMatcher.scanner ⟨[[46, 97], [98]], none, none⟩).length none ∧
    (∃ out, CommandTMatcher_sorted_matches_for (fun _ => emptyPatternDefaultScore)
        ⟨[[46, 97], [98]], none, none⟩ (some [])
        (some ⟨none, none, none, none, none⟩) = .ok out ∧
      out.Perm ((CommandTMatcher.scanner ⟨[[46, 97], [98]], none, none⟩).filter
        (fun p => decide (0 < (fun _ => emptyPatternDefaultScore)
          (normalize_abbrev [] none none) p))) ∧
      out.Pairwise (fun p q => cmp_alpha_bytes p q ≤ 0) ∧
      (out.Perm (CommandTMatcher.scanner ⟨[[46, 97], [98]], none, none⟩) ↔
        ∀ p ∈ CommandTMatcher.scanner ⟨[[46, 97], [98]], none, none⟩,
          0 < (fun _ => emptyPatternDefaultScore)
            (normalize_abbrev [] none none) p)) :=
  ⟨Or.inl rfl, Or.inl rfl, by decide,
   claim_C2_alphabetic_fallback (fun _ => emptyPatternDefaultScore)
     ⟨[[46, 97], [98]], none, none⟩ [] none none none none
     (Or.inl rfl) (Or.inl rfl) (by decide)⟩

/-- Claim C3: for a (normalized) non-empty pattern other than `"."`, with
sorting enabled, the output sequence has non-increasing score, and any two
entries with equal score appear in alphabetic order under `cmp_alpha`'s
byte-wise shorter-as-prefix-first rule. -/
theorem claim_C3_score_monotonicity (scorer : List Nat → List Nat → ℚ)
    (self : CommandTMatcher) (abbrev0 : List Nat)
    (cs : Option Bool) (lim : Option Int) (thr : Option Int) (so : Option Bool)
    (ign : Option Bool) (out : List (List Nat))
    (hpat : ¬ (normalize_abbrev abbrev0 cs ign = [] ∨
      normalize_abbrev abbrev0 cs ign = [46]))
    (hsort : so = none ∨ so = some true)
    (hres : CommandTMatcher_sorted_matches_for scorer self (some abbrev0)
      (some ⟨cs, lim, thr, so, ign⟩) = .ok out) :
    out.Pairwise (fun p q =>
      scorer (normalize_abbrev abbrev0 cs ign) q ≤
        scorer (normalize_abbrev abbrev0 cs ign) p ∧
      (scorer (normalize_abbrev abbrev0 cs ign) p =
          scorer (normalize_abbrev abbrev0 cs ign) q →
        cmp_alpha_bytes p q ≤ 0)) := by
  set na := normalize_abbrev abbrev0 cs ign with hna
  rw [sorted_matches_for_some] at hres
  have hout := (Except.ok.inj hres).symm
  subst hout
  rw [collectResults_eq]
  set ms := read_buffer (distribute (scorer na) self.scanner
    (effective_thread_count self.scanner.length thr).toNat) with hms
  set S := sort_matches so na ms with hS
  have hsorted : S.Pairwise (fun a b => cmp_score a b ≤ 0) :=
    sort_matches_score_sorted so na ms hsort hpat
  have hfil : (S.filter (fun m => decide (0 < m.score))).Pairwise
      (fun a b => cmp_score a b ≤ 0) := hsorted.filter _
  set t := (limit_value lim self.scanner.length).toNat with ht
  have htake : ((S.filter (fun m => decide (0 < m.score))).take t).Pairwise
      (fun a b => cmp_score a b ≤ 0) :=
    List.Pairwise.sublist (List.take_sublist t _) hfil
  have hshape : ∀ m ∈ (S.filter (fun m => decide (0 < m.score))).take t,
      m.score = scorer na m.path := by
    intro m hm
    have hm1 := List.mem_of_mem_take hm
    have hm2 := List.mem_filter.mp hm1
    have hm3 : m ∈ ms := (sort_matches_perm so na ms).subset hm2.1
    rcases read_buffer_mem _ _ _ m hm3 with rfl | ⟨p, _, rfl⟩
    · have hcontra : (0 : ℚ) < (⟨[], 0⟩ : match_t).score :=
        of_decide_eq_true hm2.2
      simp at hcontra
    · rfl
  rw [← List.map_take, List.pairwise_map]
  refine List.Pairwise.imp_of_mem ?_ htake
  intro a b ha hb hcs
  have hsa := hshape a ha
  have hsb := hshape b hb
  rw [cmp_score_nonpos_iff] at hcs
  constructor
  · rcases hcs with hlt | ⟨heq, _⟩
    · rw [← hsa, ← hsb]
      exact le_of_lt hlt
    · rw [← hsa, ← hsb, heq]
  · intro heq
    rcases hcs with hlt | ⟨_, halpha⟩
    · exfalso
      rw [← hsa, ← hsb] at heq
      exact absurd heq (ne_of_gt hlt)
    · exact halpha

unseal List.merge List.mergeSort in
theorem claim_C3_witness :
    ¬ (normalize_abbrev [120] none none = [] ∨
      normalize_abbrev [120] none none = [46]) ∧
    ((none : Option Bool) = none ∨ (none : Option Bool) = some true) ∧
    (CommandTMatcher_sorted_matches_for (fun _ p => (p.length : ℚ))
      ⟨[[97], [98, 99]], none, none⟩ (some [120])
      (some ⟨none, none, none, none, none⟩) = .ok [[98, 99], [97]]) ∧
    ([[98, 99], [97]] : List (List Nat)).Pairwise (fun p q =>
      (fun _ p => (p.length : ℚ)) (normalize_abbrev [120] none none) q ≤
        (fun _ p => (p.length : ℚ)) (normalize_abbrev [120] none none) p ∧
      ((fun _ p => (p.length : ℚ)) (normalize_abbrev [120] none none) p =
          (fun _ p => (p.length : ℚ)) (normalize_abbrev [120] none none) q →
        cmp_alpha_bytes p q ≤ 0)) :=
  ⟨by decide, Or.inl rfl, by rfl,
   claim_C3_score_monotonicity (fun _ p => (p.length : ℚ))
     ⟨[[97], [98, 99]], none, none⟩ [120] none none none none none
     [[98, 99], [97]] (by decide) (Or.inl rfl) (by rfl)⟩
